import Mathlib

/-!
Verification development for the mise-en-place session step-ordering and
template-resolution engine.

The repository implements the step-reordering invariant as PostgreSQL
functions (`reorder_session_steps`, `trigger_reorder_session_steps` in
`prototype/scripts/seed_supabase.py`), documents the instruction-template
grammar as a module comment of the same file, and documents the operation
batch contract through prompt-testing scripts.  The renderer, materializer
and operation applier are not implemented in executable form in the
repository; their definitions below are modelled from the specification
(each such definition carries a doc comment starting `Modelled from the
spec:`).  The SQL functions and the seeded recipe data are translated
directly from the source.
-/

namespace Mise

/-- Kernel-reducible rational multiplication.  Batteries marks `Rat.mul`
`@[irreducible]`, so we use `Rat.normalize` (which does reduce) and prove
below that this agrees with `*` on `ℚ`. -/
def qmul (a b : ℚ) : ℚ :=
  Rat.normalize (a.num * b.num) (a.den * b.den) (Nat.mul_ne_zero a.den_nz b.den_nz)

theorem qmul_eq_mul (a b : ℚ) : qmul a b = a * b :=
  (Rat.mul_def a b).symm

/-- A session step's ingredient binding: row of `session_step_ingredients`
(`seed_supabase.py` lines 185-196).  The ingredient identity is modelled by
its master-table name (the storage collaborator resolves ids to names). -/
structure IngredientBinding where
  key : String
  name : String
  originalAmount : ℚ
  adjustedAmount : Option ℚ
  unit : String
  is_substitution : Bool
  substitution_note : Option String
  deriving DecidableEq

/-- A session step's equipment binding: row of `session_step_equipment`
(`seed_supabase.py` lines 199-207). -/
structure EquipmentBinding where
  key : String
  name : String
  deriving DecidableEq

/-- A session step: row of `session_steps` (`seed_supabase.py` lines
170-182), with its bindings attached.  The `id` stands in for the UUID
primary key. -/
structure SessionStep where
  id : Nat
  order_index : ℤ
  short_text : String
  detailed_description : String
  is_completed : Bool
  is_skipped : Bool
  agent_notes : Option String
  ingredients : List IngredientBinding
  equipment : List EquipmentBinding
  deriving DecidableEq

/-- An audit-log row: `session_modifications` (`seed_supabase.py` lines
210-218). -/
structure SessionModification where
  step_index : Option ℤ
  modification_type : String
  request_details : String
  deriving DecidableEq

/-- A cooking session: row of `cooking_sessions` (`seed_supabase.py` lines
156-167) together with the steps and modification log it owns. -/
structure Session where
  current_step_index : ℤ
  pax_multiplier : ℚ
  steps : List SessionStep
  modLog : List SessionModification
  deriving DecidableEq

/-- The strict ordering `ORDER BY order_index, id` used by
`reorder_session_steps`' window function. -/
def stepBefore (a b : SessionStep) : Prop :=
  a.order_index < b.order_index ∨ (a.order_index = b.order_index ∧ a.id < b.id)

instance : DecidablePred fun p : SessionStep × SessionStep => stepBefore p.1 p.2 :=
  fun _ => by unfold stepBefore; infer_instance

instance (a b : SessionStep) : Decidable (stepBefore a b) := by
  unfold stepBefore; infer_instance

/-- `ROW_NUMBER() OVER (ORDER BY order_index, id) - 1` for step `s` among
`l`: the number of rows strictly before `s` in that ordering. -/
def rowNumber (l : List SessionStep) (s : SessionStep) : Nat :=
  (l.filter fun t => decide (stepBefore t s)).length

/-- `reorder_session_steps` (`seed_supabase.py` lines 302-315): renumber
every step of the session to its zero-based row number in ascending
`(order_index, id)` order. -/
def reorder_session_steps (l : List SessionStep) : List SessionStep :=
  l.map fun s => { s with order_index := (rowNumber l s : ℤ) }

/-- The `AFTER INSERT` trigger body `trigger_reorder_session_steps`
(`seed_supabase.py` lines 317-337): with the new row already present,
shift every *other* step whose `order_index` is at least the new row's
`order_index` up by one, then normalize via `reorder_session_steps`. -/
def shiftStep (p : ℤ) (t : SessionStep) : SessionStep :=
  if p ≤ t.order_index then { t with order_index := t.order_index + 1 } else t

def trigger_reorder_session_steps (l : List SessionStep) (new : SessionStep) :
    List SessionStep :=
  reorder_session_steps (l.map (shiftStep new.order_index) ++ [new])

theorem stepBefore_irrefl (a : SessionStep) : ¬ stepBefore a a := by
  simp [stepBefore]

theorem stepBefore_trans {a b c : SessionStep} :
    stepBefore a b → stepBefore b c → stepBefore a c := by
  rcases a with ⟨ia, oa, _, _, _, _, _, _, _⟩
  rcases b with ⟨ib, ob, _, _, _, _, _, _, _⟩
  rcases c with ⟨ic, oc, _, _, _, _, _, _, _⟩
  simp only [stepBefore]
  rintro (h1 | ⟨h1, h1'⟩) (h2 | ⟨h2, h2'⟩)
  · exact Or.inl (lt_trans h1 h2)
  · exact Or.inl (h2 ▸ h1)
  · exact Or.inl (h1 ▸ h2)
  · exact Or.inr ⟨h1.trans h2, lt_trans h1' h2'⟩

theorem stepBefore_total {a b : SessionStep} (h : a.id ≠ b.id) :
    stepBefore a b ∨ stepBefore b a := by
  rcases lt_trichotomy a.order_index b.order_index with ho | ho | ho
  · exact Or.inl (Or.inl ho)
  · rcases lt_or_gt_of_ne h with hi | hi
    · exact Or.inl (Or.inr ⟨ho, hi⟩)
    · exact Or.inr (Or.inr ⟨ho.symm, hi⟩)
  · exact Or.inr (Or.inl ho)

theorem rowNumber_lt_length {l : List SessionStep} (hl : l.Nodup)
    {s : SessionStep} (hs : s ∈ l) : rowNumber l s < l.length := by
  have hnd : (s :: l.filter fun t => decide (stepBefore t s)).Nodup := by
    refine List.nodup_cons.mpr ⟨?_, hl.filter _⟩
    intro hmem
    exact stepBefore_irrefl s (of_decide_eq_true (List.mem_filter.mp hmem).2)
  have hsub : (s :: l.filter fun t => decide (stepBefore t s)) ⊆ l := by
    intro x hx
    rcases List.mem_cons.mp hx with rfl | hx
    · exact hs
    · exact List.mem_of_mem_filter hx
  have := (List.subperm_of_subset hnd hsub).length_le
  simpa [rowNumber] using this

theorem rowNumber_lt_rowNumber {l : List SessionStep} (hl : l.Nodup)
    {a b : SessionStep} (ha : a ∈ l) (hab : stepBefore a b) :
    rowNumber l a < rowNumber l b := by
  have hnd : (a :: l.filter fun t => decide (stepBefore t a)).Nodup := by
    refine List.nodup_cons.mpr ⟨?_, hl.filter _⟩
    intro hmem
    exact stepBefore_irrefl a (of_decide_eq_true (List.mem_filter.mp hmem).2)
  have hsub : (a :: l.filter fun t => decide (stepBefore t a)) ⊆
      l.filter fun t => decide (stepBefore t b) := by
    intro x hx
    rcases List.mem_cons.mp hx with rfl | hx
    · exact List.mem_filter.mpr ⟨ha, decide_eq_true hab⟩
    · exact List.mem_filter.mpr ⟨List.mem_of_mem_filter hx,
        decide_eq_true (stepBefore_trans
          (of_decide_eq_true (List.mem_filter.mp hx).2) hab)⟩
  have := (List.subperm_of_subset hnd hsub).length_le
  simpa [rowNumber] using this

theorem reorder_ids (l : List SessionStep) :
    (reorder_session_steps l).map (·.id) = l.map (·.id) := by
  simp [reorder_session_steps, List.map_map, Function.comp]

/-- Core correctness of `reorder_session_steps`: if the step ids are
distinct, the resulting `order_index` values are a permutation of
`{0, …, N-1}`. -/
theorem reorder_perm_range {l : List SessionStep}
    (hn : (l.map (·.id)).Nodup) :
    ((reorder_session_steps l).map (·.order_index)).Perm
      ((List.range l.length).map Int.ofNat) := by
  have hl : l.Nodup := List.Nodup.of_map _ hn
  have hidp : l.Pairwise fun a b => a.id ≠ b.id := by
    simpa [List.Nodup, List.pairwise_map] using hn
  have hne : l.Pairwise fun a b => rowNumber l a ≠ rowNumber l b := by
    refine List.Pairwise.imp_of_mem ?_ hidp
    intro a b ha hb hid
    rcases stepBefore_total hid with hab | hba
    · exact (rowNumber_lt_rowNumber hl ha hab).ne
    · exact (rowNumber_lt_rowNumber hl hb hba).ne'
  have h1 : (l.map fun s => rowNumber l s).Nodup := List.pairwise_map.mpr hne
  have hsub : (l.map fun s => rowNumber l s) ⊆ List.range l.length := by
    intro r hr
    rcases List.mem_map.mp hr with ⟨s, hs, rfl⟩
    exact List.mem_range.mpr (rowNumber_lt_length hl hs)
  have hperm : (l.map fun s => rowNumber l s).Perm (List.range l.length) :=
    (List.subperm_of_subset h1 hsub).perm_of_length_le (by simp)
  have hmap : (reorder_session_steps l).map (·.order_index) =
      (l.map fun s => rowNumber l s).map Int.ofNat := by
    simp only [reorder_session_steps, List.map_map]
    rfl
  rw [hmap]
  exact hperm.map _

/-- Error kinds of validation failures, from the spec's error-handling
design (§7).  `ValidationFailed` is represented as the pair
`(opIndex, Reason)` carried by the `Except.error` of `applyBatch`. -/
inductive Reason where
  | invalidPosition
  | stepNotPending
  | bindingNotFound
  deriving DecidableEq

/-- Modelled from the spec: the operation-batch input schema (§6) and the
required-field table (§4.4).  The repository documents this contract only
through prompts in `test_modify_prompt.py`; no executable applier exists
in-source.  A fresh step id for `insert` is generated by the engine
(standing in for UUID generation), so it is not an operation field.
`substitute`'s `new_ingredient_id` is modelled by the resolved master name
of the new ingredient. -/
inductive Op where
  | insert (step_index : ℤ) (short_text : String) (detailed_description : String)
      (ingredients : List IngredientBinding) (equipment : List EquipmentBinding)
  | update (step_id : Nat) (short_text : Option String)
      (detailed_description : Option String)
  | skip (step_id : Nat)
  | adjust_quantity (step_id : Nat) (placeholder_key : String) (new_amount : ℚ)
  | substitute (step_id : Nat) (placeholder_key : String)
      (new_ingredient : String) (substitution_note : String)
  deriving DecidableEq

/-- A fresh id, strictly larger than every id present (UUID generation). -/
def freshId (l : List SessionStep) : Nat :=
  (l.map (·.id)).foldr max 0 + 1

/-- Modelled from the spec: mutate the pending step with the given id
(§4.4: `update`/`skip`/`adjust_quantity`/`substitute` require that the
target step is pending; a missing target is likewise not a pending step,
so it reports `StepNotPending`). -/
def withPending (s : Session) (sid : Nat) (f : SessionStep → SessionStep) :
    Except Reason Session :=
  match s.steps.find? fun t => t.id == sid with
  | none => .error .stepNotPending
  | some st =>
    if st.is_completed || st.is_skipped then .error .stepNotPending
    else .ok { s with steps := s.steps.map fun t => if t.id == sid then f t else t }

/-- Modelled from the spec: mutate one ingredient binding of the pending
step with the given id (§4.4: the binding must exist for the
`placeholder_key`, else `BindingNotFound`). -/
def withPendingBinding (s : Session) (sid : Nat) (key : String)
    (f : IngredientBinding → IngredientBinding) : Except Reason Session :=
  match s.steps.find? fun t => t.id == sid with
  | none => .error .stepNotPending
  | some st =>
    if st.is_completed || st.is_skipped then .error .stepNotPending
    else if (st.ingredients.find? fun b => b.key == key).isNone then
      .error .bindingNotFound
    else
      .ok { s with
        steps := s.steps.map fun t =>
          if t.id == sid then
            { t with ingredients := t.ingredients.map fun b =>
                if b.key == key then f b else b }
          else t }

/-- Modelled from the spec: apply a single validated operation (§4.4's
contract table).  `insert` requires `step_index ≥ current_step_index`
(else `InvalidPosition`) and creates the new pending step through the
sequencer, i.e. the `trigger_reorder_session_steps` shift-and-normalize
pass translated from the source SQL. -/
def applyOp (s : Session) : Op → Except Reason Session
  | .insert pos stx dtx ings eqs =>
    if pos < s.current_step_index then .error .invalidPosition
    else
      .ok { s with
        steps := trigger_reorder_session_steps s.steps
          { id := freshId s.steps, order_index := pos, short_text := stx,
            detailed_description := dtx, is_completed := false,
            is_skipped := false, agent_notes := none,
            ingredients := ings, equipment := eqs } }
  | .update sid stx dtx =>
    withPending s sid fun st =>
      { st with short_text := stx.getD st.short_text,
                detailed_description := dtx.getD st.detailed_description }
  | .skip sid =>
    withPending s sid fun st => { st with is_skipped := true }
  | .adjust_quantity sid key amt =>
    withPendingBinding s sid key fun b => { b with adjustedAmount := some amt }
  | .substitute sid key newName note =>
    withPendingBinding s sid key fun b =>
      { b with name := newName, is_substitution := true,
               substitution_note := some note }

/-- Modelled from the spec: sequential application of a batch, each
operation acting on the state left by the previous one (§4.4); the error
carries the zero-based index of the first failing operation. -/
def applyOps (s : Session) : List Op → Except (Nat × Reason) Session
  | [] => .ok s
  | op :: rest =>
    match applyOp s op with
    | .error r => .error (0, r)
    | .ok s2 =>
      match applyOps s2 rest with
      | .error e => .error (e.1 + 1, e.2)
      | .ok s3 => .ok s3

/-- The single `SessionModification` row summarizing a batch (§3, §4.4). -/
def batchRecord (reqDetails : String) : SessionModification :=
  { step_index := none, modification_type := "batch",
    request_details := reqDetails }

/-- Modelled from the spec: the batch entry point (§4.4).  Validation and
application happen on a pure copy of the state, so a failing batch leaves
the caller's session untouched; on success exactly one
`SessionModification` row summarizing the batch is appended. -/
def applyBatch (s : Session) (ops : List Op) (reqDetails : String) :
    Except (Nat × Reason) Session :=
  match applyOps s ops with
  | .error e => .error e
  | .ok s2 => .ok { s2 with modLog := s2.modLog ++ [batchRecord reqDetails] }

/-- The session state observable after attempting a batch: the new state
on success, the unchanged input state on rejection. -/
def sessionAfterAttempt (s : Session) (ops : List Op) (reqDetails : String) :
    Session :=
  match applyBatch s ops reqDetails with
  | .ok s2 => s2
  | .error _ => s

/-- Invariant 1 of the spec's data model (§3): the `order_index` values of
a session's steps are exactly `{0, …, N-1}`. -/
def OrderInv (s : Session) : Prop :=
  (s.steps.map (·.order_index)).Perm ((List.range s.steps.length).map Int.ofNat)

/-- The step ids of a session are distinct (UUID primary keys). -/
def IdsNodup (s : Session) : Prop :=
  (s.steps.map (·.id)).Nodup

theorem map_ite_mutate {l : List SessionStep} {sid : Nat}
    {g : SessionStep → SessionStep} {β : Type} (prj : SessionStep → β)
    (hg : ∀ t, prj (g t) = prj t) :
    (l.map fun t => if t.id == sid then g t else t).map prj = l.map prj := by
  rw [List.map_map]
  refine List.map_congr_left ?_
  intro t _
  by_cases h : t.id = sid <;> simp [h, hg]

theorem withPending_ok {s : Session} {sid : Nat} {f : SessionStep → SessionStep}
    {s2 : Session} (h : withPending s sid f = .ok s2)
    (hf_id : ∀ t, (f t).id = t.id)
    (hf_ord : ∀ t, (f t).order_index = t.order_index) :
    s2.steps.map (·.id) = s.steps.map (·.id) ∧
    s2.steps.map (·.order_index) = s.steps.map (·.order_index) ∧
    s2.current_step_index = s.current_step_index ∧
    s2.modLog = s.modLog := by
  unfold withPending at h
  split at h
  · exact absurd h (by simp)
  · split at h
    · exact absurd h (by simp)
    · cases h
      exact ⟨map_ite_mutate _ hf_id, map_ite_mutate _ hf_ord, rfl, rfl⟩

theorem withPendingBinding_ok {s : Session} {sid : Nat} {key : String}
    {f : IngredientBinding → IngredientBinding} {s2 : Session}
    (h : withPendingBinding s sid key f = .ok s2) :
    s2.steps.map (·.id) = s.steps.map (·.id) ∧
    s2.steps.map (·.order_index) = s.steps.map (·.order_index) ∧
    s2.current_step_index = s.current_step_index ∧
    s2.modLog = s.modLog := by
  unfold withPendingBinding at h
  split at h
  · exact absurd h (by simp)
  · split at h
    · exact absurd h (by simp)
    · split at h
      · exact absurd h (by simp)
      · cases h
        exact ⟨map_ite_mutate _ fun t => rfl, map_ite_mutate _ fun t => rfl,
          rfl, rfl⟩

theorem le_foldr_max {xs : List Nat} {x : Nat} (hx : x ∈ xs) :
    x ≤ xs.foldr max 0 := by
  induction xs with
  | nil => cases hx
  | cons a l ih =>
    rcases List.mem_cons.mp hx with rfl | hx
    · exact le_max_left _ _
    · exact le_trans (ih hx) (le_max_right _ _)

theorem freshId_not_mem (l : List SessionStep) : freshId l ∉ l.map (·.id) := by
  intro h
  exact absurd (le_foldr_max h) (by simp [freshId])

theorem shiftStep_id (p : ℤ) (t : SessionStep) : (shiftStep p t).id = t.id := by
  unfold shiftStep
  split <;> rfl

theorem shift_ids (l : List SessionStep) (p : ℤ) :
    (l.map (shiftStep p)).map (·.id) = l.map (·.id) := by
  rw [List.map_map]
  refine List.map_congr_left ?_
  intro t _
  rw [Function.comp_apply, shiftStep_id]

theorem trigger_ids (l : List SessionStep) (new : SessionStep) :
    (trigger_reorder_session_steps l new).map (·.id) =
      l.map (·.id) ++ [new.id] := by
  unfold trigger_reorder_session_steps
  rw [reorder_ids, List.map_append, shift_ids]
  rfl

theorem trigger_length (l : List SessionStep) (new : SessionStep) :
    (trigger_reorder_session_steps l new).length = l.length + 1 := by
  have := congrArg List.length (trigger_ids l new)
  simpa using this

/-- An insert through the trigger preserves distinctness of ids and
(re-)establishes the contiguity invariant, for any prior indices. -/
theorem trigger_invariants {l : List SessionStep} {new : SessionStep}
    (hn : (l.map (·.id)).Nodup) (hfresh : new.id ∉ l.map (·.id)) :
    ((trigger_reorder_session_steps l new).map (·.id)).Nodup ∧
    ((trigger_reorder_session_steps l new).map (·.order_index)).Perm
      ((List.range (l.length + 1)).map Int.ofNat) := by
  have hids : ((trigger_reorder_session_steps l new).map (·.id)).Nodup := by
    rw [trigger_ids]
    refine List.nodup_append.mpr ⟨hn, List.nodup_singleton _, ?_⟩
    intro x hx hx'
    rcases List.mem_singleton.mp hx' with rfl
    exact hfresh hx
  refine ⟨hids, ?_⟩
  have hnodup2 : ((l.map (shiftStep new.order_index) ++ [new]).map (·.id)).Nodup := by
    rw [List.map_append, shift_ids]
    refine List.nodup_append.mpr ⟨hn, List.nodup_singleton _, ?_⟩
    intro x hx hx'
    rcases List.mem_singleton.mp hx' with rfl
    exact hfresh hx
  have hres := reorder_perm_range hnodup2
  have hlen : (l.map (shiftStep new.order_index) ++ [new]).length = l.length + 1 := by
    simp
  rw [hlen] at hres
  exact hres

/-- Goal-splitting helper: a state whose step ids, order indices, cursor
and log agree with a well-formed state is well-formed. -/
theorem preserved_of_maps {s s2 : Session}
    (h1 : s2.steps.map (·.id) = s.steps.map (·.id))
    (h2 : s2.steps.map (·.order_index) = s.steps.map (·.order_index))
    (h3 : s2.current_step_index = s.current_step_index)
    (h4 : s2.modLog = s.modLog) (hn : IdsNodup s) (hinv : OrderInv s) :
    IdsNodup s2 ∧ OrderInv s2 ∧
    s2.current_step_index = s.current_step_index ∧ s2.modLog = s.modLog := by
  have hlen : s2.steps.length = s.steps.length := by
    simpa using congrArg List.length h1
  refine ⟨?_, ?_, h3, h4⟩
  · unfold IdsNodup
    rw [h1]
    exact hn
  · unfold OrderInv
    rw [h2, hlen]
    exact hinv

/-- A successfully applied single operation preserves id-distinctness and
the order-index invariant, and never touches `current_step_index` or the
modification log. -/
theorem applyOp_preserves {s s2 : Session} {op : Op}
    (hn : IdsNodup s) (hinv : OrderInv s) (h : applyOp s op = .ok s2) :
    IdsNodup s2 ∧ OrderInv s2 ∧
    s2.current_step_index = s.current_step_index ∧ s2.modLog = s.modLog := by
  cases op with
  | insert pos stx dtx ings eqs =>
    simp only [applyOp] at h
    split at h
    · exact absurd h (by simp)
    · cases h
      have hfin := @trigger_invariants s.steps
        { id := freshId s.steps, order_index := pos, short_text := stx,
          detailed_description := dtx, is_completed := false,
          is_skipped := false, agent_notes := none,
          ingredients := ings, equipment := eqs } hn (freshId_not_mem s.steps)
      refine ⟨hfin.1, ?_, rfl, rfl⟩
      unfold OrderInv
      simpa [trigger_length] using hfin.2
  | update sid stx dtx =>
    simp only [applyOp] at h
    rcases withPending_ok h (fun t => rfl) (fun t => rfl) with ⟨h1, h2, h3, h4⟩
    exact preserved_of_maps h1 h2 h3 h4 hn hinv
  | skip sid =>
    simp only [applyOp] at h
    rcases withPending_ok h (fun t => rfl) (fun t => rfl) with ⟨h1, h2, h3, h4⟩
    exact preserved_of_maps h1 h2 h3 h4 hn hinv
  | adjust_quantity sid key amt =>
    simp only [applyOp] at h
    rcases withPendingBinding_ok h with ⟨h1, h2, h3, h4⟩
    exact preserved_of_maps h1 h2 h3 h4 hn hinv
  | substitute sid key newName note =>
    simp only [applyOp] at h
    rcases withPendingBinding_ok h with ⟨h1, h2, h3, h4⟩
    exact preserved_of_maps h1 h2 h3 h4 hn hinv

theorem applyOps_preserves {ops : List Op} :
    ∀ {s s2 : Session}, IdsNodup s → OrderInv s → applyOps s ops = .ok s2 →
    IdsNodup s2 ∧ OrderInv s2 ∧
    s2.current_step_index = s.current_step_index ∧ s2.modLog = s.modLog := by
  induction ops with
  | nil =>
    intro s s2 hn hinv h
    cases h
    exact ⟨hn, hinv, rfl, rfl⟩
  | cons op rest ih =>
    intro s s2 hn hinv h
    unfold applyOps at h
    split at h
    · exact absurd h (by simp)
    · rename_i s1 heq
      split at h
      · exact absurd h (by simp)
      · rename_i s3 heq2
        cases h
        rcases applyOp_preserves hn hinv heq with ⟨hn1, hinv1, hc1, hm1⟩
        rcases ih hn1 hinv1 heq2 with ⟨hn2, hinv2, hc2, hm2⟩
        exact ⟨hn2, hinv2, hc2.trans hc1, hm2.trans hm1⟩

theorem applyOp_log {s s2 : Session} {op : Op} (h : applyOp s op = .ok s2) :
    s2.modLog = s.modLog ∧ s2.current_step_index = s.current_step_index := by
  cases op with
  | insert pos stx dtx ings eqs =>
    simp only [applyOp] at h
    split at h
    · exact absurd h (by simp)
    · cases h
      exact ⟨rfl, rfl⟩
  | update sid stx dtx =>
    simp only [applyOp] at h
    rcases withPending_ok h (fun t => rfl) (fun t => rfl) with ⟨_, _, h3, h4⟩
    exact ⟨h4, h3⟩
  | skip sid =>
    simp only [applyOp] at h
    rcases withPending_ok h (fun t => rfl) (fun t => rfl) with ⟨_, _, h3, h4⟩
    exact ⟨h4, h3⟩
  | adjust_quantity sid key amt =>
    simp only [applyOp] at h
    rcases withPendingBinding_ok h with ⟨_, _, h3, h4⟩
    exact ⟨h4, h3⟩
  | substitute sid key newName note =>
    simp only [applyOp] at h
    rcases withPendingBinding_ok h with ⟨_, _, h3, h4⟩
    exact ⟨h4, h3⟩

theorem applyOps_log {ops : List Op} :
    ∀ {s s2 : Session}, applyOps s ops = .ok s2 →
    s2.modLog = s.modLog ∧ s2.current_step_index = s.current_step_index := by
  induction ops with
  | nil =>
    intro s s2 h
    cases h
    exact ⟨rfl, rfl⟩
  | cons op rest ih =>
    intro s s2 h
    unfold applyOps at h
    split at h
    · exact absurd h (by simp)
    · rename_i s1 heq
      split at h
      · exact absurd h (by simp)
      · rename_i s3 heq2
        cases h
        rcases applyOp_log heq with ⟨h4, h3⟩
        rcases ih heq2 with ⟨h4', h3'⟩
        exact ⟨h4'.trans h4, h3'.trans h3⟩

theorem applyBatch_error_iff {s : Session} {ops : List Op} {rd : String}
    {e : Nat × Reason} :
    applyBatch s ops rd = .error e ↔ applyOps s ops = .error e := by
  unfold applyBatch
  cases h : applyOps s ops <;> simp

theorem applyBatch_ok_log {s s2 : Session} {ops : List Op} {rd : String}
    (h : applyBatch s ops rd = .ok s2) :
    ∃ s1, applyOps s ops = .ok s1 ∧
      s2 = { s1 with modLog := s1.modLog ++ [batchRecord rd] } ∧
      s2.modLog = s.modLog ++ [batchRecord rd] := by
  unfold applyBatch at h
  split at h
  · exact absurd h (by simp)
  · rename_i s1 heq
    cases h
    exact ⟨s1, heq, rfl, by simp [(applyOps_log heq).1]⟩

/-- The zero-based index reported by a batch rejection designates exactly
the first failing operation: all earlier operations validate and apply on
the simulated state, and the operation at that index fails. -/
theorem applyOps_error_iff {ops : List Op} :
    ∀ {s : Session} {k : Nat} {r : Reason},
    applyOps s ops = .error (k, r) ↔
      ∃ sk op, applyOps s (ops.take k) = .ok sk ∧ ops[k]? = some op ∧
        applyOp sk op = .error r := by
  induction ops with
  | nil =>
    intro s k r
    constructor
    · intro h
      simp [applyOps] at h
    · rintro ⟨sk, op, -, hget, -⟩
      simp at hget
  | cons op rest ih =>
    intro s k r
    constructor
    · intro h
      unfold applyOps at h
      split at h
      · rename_i r0 heq0
        rcases h with ⟨⟩
        exact ⟨s, op, rfl, by simp, heq0⟩
      · rename_i s1 heq0
        split at h
        · rename_i e heq1
          rcases h with ⟨⟩
          rcases ih.mp heq1 with ⟨sk, opk, htake, hget, herr⟩
          refine ⟨sk, opk, ?_, ?_, herr⟩
          · simp only [List.take_succ_cons, applyOps, heq0]
            rw [htake]
          · simpa using hget
        · exact absurd h (by simp)
    · rintro ⟨sk, opk, htake, hget, herr⟩
      cases k with
      | zero =>
        rcases htake with ⟨⟩
        simp only [List.getElem?_cons_zero, Option.some.injEq] at hget
        subst hget
        unfold applyOps
        rw [herr]
      | succ k' =>
        rw [List.take_succ_cons] at htake
        cases h0 : applyOp s op with
        | error r0 =>
          unfold applyOps at htake
          rw [h0] at htake
          exact absurd htake (by simp)
        | ok s1 =>
          unfold applyOps at htake
          rw [h0] at htake
          dsimp only at htake
          have htake2 : applyOps s1 (List.take k' rest) = .ok sk := by
            cases h1 : applyOps s1 (List.take k' rest) with
            | error e =>
              rw [h1] at htake
              exact absurd htake (by simp)
            | ok s3 =>
              rw [h1] at htake
              rcases htake with ⟨⟩
              rfl
          have hrest : applyOps s1 rest = .error (k', r) :=
            ih.mpr ⟨sk, opk, htake2, by simpa using hget, herr⟩
          unfold applyOps
          rw [h0]
          dsimp only
          rw [hrest]

/-- Rendering failure (§4.1, §7): a placeholder key with no matching
binding. -/
inductive RErr where
  | unresolvedPlaceholder (key : String)
  deriving DecidableEq

def lbrace : Char := Char.ofNat 123

def rbrace : Char := Char.ofNat 125

/-- A piece of a template: a literal character or the body of a
`{`…`}` token. -/
inductive Chunk where
  | lit (c : Char)
  | tok (body : List Char)
  deriving DecidableEq

/-- Split off a token body at a closing brace: returns the characters up
to (excluding) the first closing brace, and the remainder after it. -/
def splitTok : List Char → Option (List Char × List Char)
  | [] => none
  | c :: cs =>
    if c = rbrace then some ([], cs)
    else
      match splitTok cs with
      | some (b, r) => some (c :: b, r)
      | none => none

/-- Fuel-driven scanner: decompose a character list into literal
characters and brace-delimited token bodies.  An opening brace with no
matching closing brace is kept as a literal.  Fuel bounded by the input
length always suffices. -/
def scanAux : Nat → List Char → List Chunk
  | 0, _ => []
  | _ + 1, [] => []
  | fuel + 1, c :: rest =>
    if c = lbrace then
      match splitTok rest with
      | some (body, rest2) => Chunk.tok body :: scanAux fuel rest2
      | none => Chunk.lit c :: scanAux fuel rest
    else Chunk.lit c :: scanAux fuel rest

/-- Modelled from the spec: tokenization of a template under the grammar
of §4.1 and the module comment of `seed_supabase.py` (lines 342-387). -/
def scanChunks (cs : List Char) : List Chunk :=
  scanAux cs.length cs

/-- The three grammar forms `{i:key}`, `{i:key:qty}`, `{e:key}`; any
other body is not a placeholder. -/
inductive TokForm where
  | ingName (key : List Char)
  | ingQty (key : List Char)
  | equipName (key : List Char)
  | unknownTok
  deriving DecidableEq

/-- Modelled from the spec: classify a token body by splitting it at
colons (grammar of §4.1). -/
def parseTok (body : List Char) : TokForm :=
  match body.splitOn ':' with
  | [t, k] =>
    if t = ['i'] then .ingName k
    else if t = ['e'] then .equipName k
    else .unknownTok
  | [t, k, q] =>
    if t = ['i'] ∧ q = ['q', 't', 'y'] then .ingQty k else .unknownTok
  | _ => .unknownTok

def findIng (bi : List IngredientBinding) (k : List Char) :
    Option IngredientBinding :=
  bi.find? fun b => b.key.toList == k

def findEq (be : List EquipmentBinding) (k : List Char) :
    Option EquipmentBinding :=
  be.find? fun b => b.key.toList == k

/-- Display names are rendered in lowercase, as in every grammar example
of the module comment ("Olive Oil" renders as "olive oil"). -/
def lowerChars (cs : List Char) : List Char :=
  cs.map Char.toLower

/-- The decimal digit characters. -/
def digitChar (d : Nat) : Char :=
  if d = 0 then '0' else if d = 1 then '1' else if d = 2 then '2'
  else if d = 3 then '3' else if d = 4 then '4' else if d = 5 then '5'
  else if d = 6 then '6' else if d = 7 then '7' else if d = 8 then '8'
  else '9'

/-- Little-endian base-10 digits of `n`, with structural fuel (fuel `n`
always suffices). -/
def natDigitsAux : Nat → Nat → List Nat
  | 0, _ => []
  | _ + 1, 0 => []
  | fuel + 1, n + 1 => ((n + 1) % 10) :: natDigitsAux fuel ((n + 1) / 10)

/-- Decimal representation of a natural number. -/
def natChars (n : Nat) : List Char :=
  if n = 0 then ['0'] else ((natDigitsAux n n).reverse.map digitChar)

/-- Decimal representation of an integer. -/
def intChars (n : Int) : List Char :=
  if n < 0 then '-' :: natChars n.natAbs else natChars n.natAbs

/-- Long-division digits of the fraction `num/den` (`num < den`),
stopping when the remainder reaches zero; `fuel` bounds the number of
emitted digits. -/
def fracDigits : Nat → Nat → Nat → List Nat
  | 0, _, _ => []
  | fuel + 1, num, den =>
    if num = 0 then []
    else (num * 10 / den) :: fracDigits fuel (num * 10 % den) den

/-- Modelled from the spec: amount formatting of §4.1 — integral values
without a decimal point, fractional values with the minimal terminating
decimal expansion (up to 30 fractional digits). -/
def fmtAmountChars (q : ℚ) : List Char :=
  if q.den = 1 then intChars q.num
  else
    (if q.num < 0 then ['-'] else []) ++ natChars (q.num.natAbs / q.den)
      ++ '.' :: (fracDigits 30 (q.num.natAbs % q.den) q.den).map digitChar

/-- Invariant 4 of the data model (§3): `adjusted_amount`, when present,
supersedes `original_amount` for rendering. -/
def amountOf (b : IngredientBinding) : ℚ :=
  b.adjustedAmount.getD b.originalAmount

/-- Modelled from the spec: resolve one token body against the step's
bindings (§4.1).  `{i:key}` and `{e:key}` give the bound name,
`{i:key:qty}` gives `"<amount> <unit> <name>"`; a missing binding is
`UnresolvedPlaceholder`; a body outside the grammar is reproduced
verbatim. -/
def renderTok (bi : List IngredientBinding) (be : List EquipmentBinding)
    (body : List Char) : Except RErr (List Char) :=
  match parseTok body with
  | .ingName k =>
    match findIng bi k with
    | some b => .ok (lowerChars b.name.toList)
    | none => .error (.unresolvedPlaceholder (String.mk k))
  | .ingQty k =>
    match findIng bi k with
    | some b =>
      .ok (fmtAmountChars (amountOf b) ++ ' ' :: b.unit.toList
        ++ ' ' :: lowerChars b.name.toList)
    | none => .error (.unresolvedPlaceholder (String.mk k))
  | .equipName k =>
    match findEq be k with
    | some b => .ok (lowerChars b.name.toList)
    | none => .error (.unresolvedPlaceholder (String.mk k))
  | .unknownTok => .ok (lbrace :: body ++ [rbrace])

/-- Resolve a chunk list left to right; the first failing token aborts
the whole rendering with its error. -/
def renderChunks (bi : List IngredientBinding) (be : List EquipmentBinding) :
    List Chunk → Except RErr (List Char)
  | [] => .ok []
  | .lit c :: rest =>
    match renderChunks bi be rest with
    | .ok out => .ok (c :: out)
    | .error e => .error e
  | .tok body :: rest =>
    match renderTok bi be body with
    | .error e => .error e
    | .ok piece =>
      match renderChunks bi be rest with
      | .ok out => .ok (piece ++ out)
      | .error e => .error e

/-- Modelled from the spec: `render(template, ingredient_bindings,
equipment_bindings) → text` (§4.1), all-or-nothing by construction. -/
def render (template : String) (bi : List IngredientBinding)
    (be : List EquipmentBinding) : Except RErr String :=
  match renderChunks bi be (scanChunks template.toList) with
  | .ok out => .ok (String.mk out)
  | .error e => .error e

theorem renderChunks_ok_toks {bi : List IngredientBinding}
    {be : List EquipmentBinding} {chunks : List Chunk} :
    ∀ {out : List Char}, renderChunks bi be chunks = .ok out →
    ∀ body, Chunk.tok body ∈ chunks → ∃ piece, renderTok bi be body = .ok piece := by
  induction chunks with
  | nil =>
    intro out h body hb
    cases hb
  | cons c rest ih =>
    intro out h body hb
    cases c with
    | lit ch =>
      unfold renderChunks at h
      cases h1 : renderChunks bi be rest with
      | ok o =>
        rcases List.mem_cons.mp hb with heq | hb'
        · cases heq
        · exact ih h1 body hb'
      | error e =>
        rw [h1] at h
        exact absurd h (by simp)
    | tok b0 =>
      unfold renderChunks at h
      cases h0 : renderTok bi be b0 with
      | error e =>
        rw [h0] at h
        exact absurd h (by simp)
      | ok piece =>
        rw [h0] at h
        dsimp only at h
        cases h1 : renderChunks bi be rest with
        | error e =>
          rw [h1] at h
          exact absurd h (by simp)
        | ok o =>
          rcases List.mem_cons.mp hb with heq | hb'
          · rcases heq with ⟨⟩
            exact ⟨piece, h0⟩
          · exact ih h1 body hb'

theorem renderChunks_error_tok {bi : List IngredientBinding}
    {be : List EquipmentBinding} {chunks : List Chunk} :
    ∀ {e : RErr}, renderChunks bi be chunks = .error e →
    ∃ body, Chunk.tok body ∈ chunks ∧ renderTok bi be body = .error e := by
  induction chunks with
  | nil =>
    intro e h
    exact absurd h (by simp [renderChunks])
  | cons c rest ih =>
    intro e h
    cases c with
    | lit ch =>
      unfold renderChunks at h
      cases h1 : renderChunks bi be rest with
      | ok o =>
        rw [h1] at h
        exact absurd h (by simp)
      | error e' =>
        rw [h1] at h
        dsimp only at h
        rcases h with ⟨⟩
        rcases ih h1 with ⟨body, hb, he⟩
        exact ⟨body, List.mem_cons_of_mem _ hb, he⟩
    | tok b0 =>
      unfold renderChunks at h
      cases h0 : renderTok bi be b0 with
      | error e0 =>
        rw [h0] at h
        dsimp only at h
        rcases h with ⟨⟩
        exact ⟨b0, List.mem_cons_self _ _, h0⟩
      | ok piece =>
        rw [h0] at h
        dsimp only at h
        cases h1 : renderChunks bi be rest with
        | ok o =>
          rw [h1] at h
          exact absurd h (by simp)
        | error e' =>
          rw [h1] at h
          dsimp only at h
          rcases h with ⟨⟩
          rcases ih h1 with ⟨body, hb, he⟩
          exact ⟨body, List.mem_cons_of_mem _ hb, he⟩

/-- A token body whose key has no matching binding in the appropriate
binding set is exactly what `renderTok` rejects. -/
def Unbound (bi : List IngredientBinding) (be : List EquipmentBinding)
    (body : List Char) (k : List Char) : Prop :=
  ((parseTok body = .ingName k ∨ parseTok body = .ingQty k) ∧ findIng bi k = none)
    ∨ (parseTok body = .equipName k ∧ findEq be k = none)

theorem renderTok_error_unbound {bi : List IngredientBinding}
    {be : List EquipmentBinding} {body : List Char} {e : RErr}
    (h : renderTok bi be body = .error e) :
    ∃ k, e = .unresolvedPlaceholder (String.mk k) ∧ Unbound bi be body k := by
  unfold renderTok at h
  cases hp : parseTok body with
  | ingName k =>
    rw [hp] at h
    dsimp only at h
    cases hf : findIng bi k with
    | some b =>
      rw [hf] at h
      exact absurd h (by simp)
    | none =>
      rw [hf] at h
      dsimp only at h
      rcases h with ⟨⟩
      exact ⟨k, rfl, Or.inl ⟨Or.inl hp, hf⟩⟩
  | ingQty k =>
    rw [hp] at h
    dsimp only at h
    cases hf : findIng bi k with
    | some b =>
      rw [hf] at h
      exact absurd h (by simp)
    | none =>
      rw [hf] at h
      dsimp only at h
      rcases h with ⟨⟩
      exact ⟨k, rfl, Or.inl ⟨Or.inr hp, hf⟩⟩
  | equipName k =>
    rw [hp] at h
    dsimp only at h
    cases hf : findEq be k with
    | some b =>
      rw [hf] at h
      exact absurd h (by simp)
    | none =>
      rw [hf] at h
      dsimp only at h
      rcases h with ⟨⟩
      exact ⟨k, rfl, Or.inr ⟨hp, hf⟩⟩
  | unknownTok =>
    rw [hp] at h
    exact absurd h (by simp)

theorem renderTok_unbound_error {bi : List IngredientBinding}
    {be : List EquipmentBinding} {body : List Char} {k : List Char}
    (h : Unbound bi be body k) :
    renderTok bi be body = .error (.unresolvedPlaceholder (String.mk k)) := by
  unfold renderTok
  rcases h with ⟨hp | hp, hf⟩ | ⟨hp, hf⟩ <;> rw [hp] <;> dsimp only <;> rw [hf]

theorem render_error_iff {template : String} {bi : List IngredientBinding}
    {be : List EquipmentBinding} {e : RErr} :
    render template bi be = .error e ↔
      renderChunks bi be (scanChunks template.toList) = .error e := by
  unfold render
  cases h : renderChunks bi be (scanChunks template.toList) <;> simp

theorem render_ok_chunks {template : String} {bi : List IngredientBinding}
    {be : List EquipmentBinding} {out : String}
    (h : render template bi be = .ok out) :
    ∃ cs, renderChunks bi be (scanChunks template.toList) = .ok cs ∧
      out = String.mk cs := by
  unfold render at h
  cases h1 : renderChunks bi be (scanChunks template.toList) with
  | ok cs =>
    rw [h1] at h
    dsimp only at h
    rcases h with ⟨⟩
    exact ⟨cs, rfl, rfl⟩
  | error e =>
    rw [h1] at h
    exact absurd h (by simp)

theorem digitChar_ne_dot (d : Nat) : digitChar d ≠ '.' := by
  unfold digitChar
  repeat' split
  all_goals decide

theorem digitChar_ne_zero {d : Nat} (hd : d ≠ 0) : digitChar d ≠ '0' := by
  unfold digitChar
  rw [if_neg hd]
  repeat' split
  all_goals decide

theorem natChars_no_dot (n : Nat) : '.' ∉ natChars n := by
  unfold natChars
  split
  · decide
  · intro hmem
    rcases List.mem_map.mp (List.mem_reverse.mp (by simpa using hmem))
      with ⟨d, -, hd⟩
    exact digitChar_ne_dot d hd

theorem intChars_no_dot (n : Int) : '.' ∉ intChars n := by
  unfold intChars
  split
  · intro hmem
    rcases List.mem_cons.mp hmem with h | h
    · cases h
    · exact natChars_no_dot _ h
  · exact natChars_no_dot _

theorem fracDigits_zero (fuel den : Nat) : fracDigits fuel 0 den = [] := by
  cases fuel <;> simp [fracDigits]

theorem fracDigits_getLast_ne_zero :
    ∀ (fuel : Nat) {num den : Nat}, 0 < den → num < den → num ≠ 0 →
    den ∣ num * 10 ^ fuel →
    ∀ d, (fracDigits fuel num den).getLast? = some d → d ≠ 0 := by
  intro fuel
  induction fuel with
  | zero =>
    intro num den hden hlt hnum hdvd d hlast
    simp [fracDigits] at hlast
  | succ fuel ih =>
    intro num den hden hlt hnum hdvd d hlast
    rw [fracDigits, if_neg hnum] at hlast
    by_cases h2 : num * 10 % den = 0
    · rw [h2, fracDigits_zero] at hlast
      simp only [List.getLast?_singleton, Option.some.injEq] at hlast
      subst hlast
      intro hzero
      have h3 := Nat.div_add_mod (num * 10) den
      rw [hzero, h2] at h3
      omega
    · cases hrest : fracDigits fuel (num * 10 % den) den with
      | nil =>
        cases fuel with
        | zero =>
          exfalso
          apply h2
          have hdvd1 : den ∣ num * 10 := by
            have hp : num * 10 ^ (0 + 1) = num * 10 := by ring
            rw [hp] at hdvd
            exact hdvd
          exact Nat.mod_eq_zero_of_dvd hdvd1
        | succ fuel' =>
          rw [fracDigits, if_neg h2] at hrest
          cases hrest
      | cons x xs =>
        rw [hrest, List.getLast?_cons_cons] at hlast
        have hmod : (num * 10 % den) * 10 ^ fuel % den
            = num * 10 * 10 ^ fuel % den := by
          conv_lhs => rw [Nat.mul_mod]
          conv_rhs => rw [Nat.mul_mod]
          rw [Nat.mod_mod_of_dvd _ (dvd_refl den)]
        have hdvd2 : den ∣ num * 10 * 10 ^ fuel := by
          have hp : num * 10 ^ (fuel + 1) = num * 10 * 10 ^ fuel := by ring
          rw [hp] at hdvd
          exact hdvd
        have hzero2 : num * 10 * 10 ^ fuel % den = 0 :=
          Nat.mod_eq_zero_of_dvd hdvd2
        rw [← hmod] at hzero2
        refine ih hden (Nat.mod_lt _ hden) h2 (Nat.dvd_of_mod_eq_zero hzero2) d ?_
        rw [hrest]
        exact hlast

theorem fmtAmount_integral_no_dot {q : ℚ} (h : q.den = 1) :
    '.' ∉ fmtAmountChars q := by
  unfold fmtAmountChars
  rw [if_pos h]
  exact intChars_no_dot _

theorem fmtAmount_fractional_minimal {q : ℚ} (h1 : q.den ≠ 1)
    (h2 : q.den ∣ 10 ^ 30) :
    ∀ c, (fmtAmountChars q).getLast? = some c → c ≠ '0' := by
  unfold fmtAmountChars
  rw [if_neg h1]
  have hden : 0 < q.den := q.den_pos
  have hfr_ne : q.num.natAbs % q.den ≠ 0 := by
    intro h0
    have hdvd : q.den ∣ q.num.natAbs := Nat.dvd_of_mod_eq_zero h0
    have hg : q.den ∣ Nat.gcd q.num.natAbs q.den := Nat.dvd_gcd hdvd dvd_rfl
    rw [q.reduced] at hg
    exact h1 (Nat.dvd_one.mp hg)
  intro c hlast hc0
  rw [List.getLast?_append_of_ne_nil _ (by simp)] at hlast
  have hmap : ('.' :: (fracDigits 30 (q.num.natAbs % q.den) q.den).map digitChar).getLast?
      = ((fracDigits 30 (q.num.natAbs % q.den) q.den).getLast?).map digitChar := by
    cases hd : fracDigits 30 (q.num.natAbs % q.den) q.den with
    | nil =>
      exfalso
      rw [show (30 : ℕ) = 29 + 1 from rfl, fracDigits, if_neg hfr_ne] at hd
      cases hd
    | cons y ys =>
      rw [show ('.' :: List.map digitChar (y :: ys))
          = ['.'] ++ List.map digitChar (y :: ys) from rfl,
        List.getLast?_append_of_ne_nil _ (by simp), List.getLast?_map]
  rw [hmap] at hlast
  cases hd2 : (fracDigits 30 (q.num.natAbs % q.den) q.den).getLast? with
  | none =>
    rw [hd2] at hlast
    cases hlast
  | some dd =>
    rw [hd2] at hlast
    simp only [Option.map_some', Option.some.injEq] at hlast
    have hdd : dd ≠ 0 :=
      fracDigits_getLast_ne_zero 30 hden (Nat.mod_lt _ hden) hfr_ne
        (Dvd.dvd.mul_left h2 _) dd hd2
    exact digitChar_ne_zero hdd (hlast ▸ hc0)

/-- Materialization failure (§4.2, §7). -/
inductive MErr where
  | emptyRecipe
  deriving DecidableEq

/-- A template step ingredient from `RECIPES_DATA`'s `step_ingredients`
tuples `(placeholder_key, ingredient_name, amount, unit)`. -/
structure TemplateIngredient where
  key : String
  name : String
  amount : ℚ
  unit : String
  deriving DecidableEq

/-- A template step equipment from `step_equipment` tuples
`(placeholder_key, equipment_name)`. -/
structure TemplateEquipment where
  key : String
  name : String
  deriving DecidableEq

/-- An immutable template step: row of `instruction_steps`
(`seed_supabase.py` lines 123-131) with its step-level bindings. -/
structure InstructionStep where
  order_index : ℤ
  short_text : String
  detailed_description : String
  step_ingredients : List TemplateIngredient
  step_equipment : List TemplateEquipment
  deriving DecidableEq

/-- An immutable recipe template: row of `recipes` with its ordered
steps. -/
structure Recipe where
  title : String
  base_pax : Nat
  steps : List InstructionStep
  deriving DecidableEq

/-- Modelled from the spec: materialization of one ingredient binding
(§4.2) — `adjusted_amount` is initialized to
`original_amount * pax_multiplier`, `original_amount` keeps the
template's unscaled value. -/
def materializeBinding (pax : ℚ) (tb : TemplateIngredient) :
    IngredientBinding :=
  { key := tb.key, name := tb.name, originalAmount := tb.amount,
    adjustedAmount := some (qmul tb.amount pax), unit := tb.unit,
    is_substitution := false, substitution_note := none }

/-- Modelled from the spec: copy one template step into a session step
preserving `order_index`; equipment bindings are copied without
scaling (§4.2). -/
def materializeStep (pax : ℚ) (i : Nat) (st : InstructionStep) :
    SessionStep :=
  { id := i, order_index := st.order_index, short_text := st.short_text,
    detailed_description := st.detailed_description, is_completed := false,
    is_skipped := false, agent_notes := none,
    ingredients := st.step_ingredients.map (materializeBinding pax),
    equipment := st.step_equipment.map fun te =>
      { key := te.key, name := te.name } }

/-- Modelled from the spec: `materialize(recipe, pax_multiplier) →
CookingSession` (§4.2); fails `EmptyRecipe` exactly when the recipe has
zero steps. -/
def materialize (r : Recipe) (pax : ℚ) : Except MErr Session :=
  if r.steps.isEmpty then .error .emptyRecipe
  else
    .ok { current_step_index := 0, pax_multiplier := pax,
          steps := r.steps.enum.map fun p => materializeStep pax p.1 p.2,
          modLog := [] }

/-- The "Vegan Chili" recipe of `RECIPES_DATA` (`seed_supabase.py` lines
389-461); step `order_index` is the seeding loop's `enumerate` index. -/
def veganChili : Recipe :=
  { title := "Vegan Chili", base_pax := 6,
    steps :=
    [{ order_index := 0, short_text := "Mise en Place",
       detailed_description := "Dice {i:onion} (medium). Mince {i:garlic} and {i:jalapeno}. Measure spices ({i:chili_powder:qty}, {i:cumin:qty}, {i:paprika:qty}) into a small bowl. Open cans of {i:kidney_beans} and {i:tomatoes}. Rinse beans.",
       step_ingredients :=
         [{ key := "onion", name := "Onion", amount := 1, unit := "large" },
          { key := "garlic", name := "Garlic", amount := 6, unit := "clove" },
          { key := "jalapeno", name := "Jalapeño", amount := 2, unit := "whole" },
          { key := "chili_powder", name := "Chili Powder", amount := 3, unit := "tbsp" },
          { key := "cumin", name := "Cumin", amount := 1, unit := "tbsp" },
          { key := "paprika", name := "Smoked Paprika", amount := Rat.divInt 3 2, unit := "tsp" },
          { key := "kidney_beans", name := "Kidney Beans", amount := 2, unit := "can" },
          { key := "tomatoes", name := "Crushed Tomatoes", amount := 28, unit := "oz" }],
       step_equipment :=
         [{ key := "knife", name := "Knife" },
          { key := "cutting_board", name := "Cutting Board" }] },
     { order_index := 1, short_text := "Sauté Aromatics",
       detailed_description := "Heat {i:oil:qty} in the {e:dutch_oven} over medium heat. Sauté diced {i:onion} until translucent (5-7 mins). Add minced {i:garlic} and {i:jalapeno}, cook 1 min until fragrant.",
       step_ingredients :=
         [{ key := "oil", name := "Olive Oil", amount := 2, unit := "tbsp" },
          { key := "onion", name := "Onion", amount := 1, unit := "large" },
          { key := "garlic", name := "Garlic", amount := 6, unit := "clove" },
          { key := "jalapeno", name := "Jalapeño", amount := 2, unit := "whole" }],
       step_equipment :=
         [{ key := "dutch_oven", name := "Dutch Oven" },
          { key := "wooden_spoon", name := "Wooden Spoon" }] },
     { order_index := 2, short_text := "Bloom Spices",
       detailed_description := "Stir in {i:tomato_paste:qty} and the spice mixture. Cook stirring constantly with {e:wooden_spoon} for 2 mins until spices darken.",
       step_ingredients :=
         [{ key := "tomato_paste", name := "Tomato Paste", amount := 2, unit := "tbsp" }],
       step_equipment := [{ key := "wooden_spoon", name := "Wooden Spoon" }] },
     { order_index := 3, short_text := "Simmer",
       detailed_description := "Deglaze with a splash of {i:broth}. Add {i:tomatoes:qty}, rinsed {i:kidney_beans} and {i:pinto_beans}, and remaining {i:broth}. Stir well to combine.",
       step_ingredients :=
         [{ key := "broth", name := "Vegetable Broth", amount := 2, unit := "cup" },
          { key := "tomatoes", name := "Crushed Tomatoes", amount := 28, unit := "oz" },
          { key := "kidney_beans", name := "Kidney Beans", amount := 2, unit := "can" },
          { key := "pinto_beans", name := "Pinto Beans", amount := 2, unit := "can" }],
       step_equipment := [] },
     { order_index := 4, short_text := "Cook",
       detailed_description := "Bring to a boil in the {e:dutch_oven}, then reduce heat to low. Simmer uncovered for 45-60 mins until thickened.",
       step_ingredients := [],
       step_equipment := [{ key := "dutch_oven", name := "Dutch Oven" }] },
     { order_index := 5, short_text := "Finish",
       detailed_description := "Season with salt to taste. Serve hot.",
       step_ingredients := [],
       step_equipment := [] }] }

/-- Fallback step for total indexing into a session's step list. -/
def junkStep : SessionStep :=
  { id := 0, order_index := 0, short_text := "", detailed_description := "",
    is_completed := false, is_skipped := false, agent_notes := none,
    ingredients := [], equipment := [] }

def stepAt (s : Session) (i : Nat) : SessionStep :=
  (s.steps[i]?).getD junkStep

/-- The session produced by materializing a recipe (the empty session on
`EmptyRecipe`, which the scenarios never hit). -/
def sessionOf (r : Recipe) (pax : ℚ) : Session :=
  match materialize r pax with
  | .ok s => s
  | .error _ =>
    { current_step_index := 0, pax_multiplier := pax, steps := [], modLog := [] }

/-- Render a session step's template against its own bindings. -/
def renderStep (st : SessionStep) : Except RErr String :=
  render st.detailed_description st.ingredients st.equipment

/-- `pre` is a prefix of `s`. -/
def prefixOfB : List Char → List Char → Bool
  | [], _ => true
  | _ :: _, [] => false
  | a :: as, b :: bs => a == b && prefixOfB as bs

/-- `pat` occurs as a contiguous substring of `s`. -/
def infixOfB (pat : List Char) : List Char → Bool
  | [] => pat.isEmpty
  | c :: rest => prefixOfB pat (c :: rest) || infixOfB pat rest

/-- `true` iff rendering succeeds and the output contains `pat`. -/
def renderedContains (st : SessionStep) (pat : String) : Bool :=
  match renderStep st with
  | .ok t => infixOfB pat.toList t.toList
  | .error _ => false

/-- Clamp an integer position into `{0, …, N}`. -/
def clampNat (v : ℤ) (N : Nat) : Nat :=
  if v ≤ 0 then 0 else if v ≤ (N : ℤ) then v.toNat else N

theorem clampNat_eq_min_max (v : ℤ) (N : Nat) :
    (clampNat v N : ℤ) = min (max v 0) (N : ℤ) := by
  unfold clampNat
  split_ifs <;> omega

theorem countP_range_lt (N : Nat) (v : ℤ) :
    List.countP (fun n => decide (Int.ofNat n < v)) (List.range N) = clampNat v N := by
  induction N with
  | zero =>
    simp only [List.range_zero, List.countP_nil, clampNat]
    split_ifs <;> omega
  | succ n ih =>
    rw [List.range_succ, List.countP_append, ih]
    simp only [List.countP_cons, List.countP_nil, clampNat]
    by_cases h : ((n : ℤ) < v) <;> simp [h] <;> split_ifs <;> omega

theorem orders_nodup_of_perm_range {l : List SessionStep}
    (horders : (l.map (·.order_index)).Perm
      ((List.range l.length).map Int.ofNat)) :
    (l.map (·.order_index)).Nodup := by
  refine horders.symm.nodup ?_
  refine List.Nodup.map ?_ (List.nodup_range _)
  intro a b hab
  exact Int.ofNat_inj.mp hab

theorem order_mem_of_perm_range {l : List SessionStep} {st : SessionStep}
    (horders : (l.map (·.order_index)).Perm
      ((List.range l.length).map Int.ofNat))
    (hst : st ∈ l) : 0 ≤ st.order_index ∧ st.order_index < (l.length : ℤ) := by
  have hmem : st.order_index ∈ (List.range l.length).map Int.ofNat :=
    horders.mem_iff.mp (List.mem_map_of_mem _ hst)
  rcases List.mem_map.mp hmem with ⟨n, hn, heq⟩
  have hlt := List.mem_range.mp hn
  rw [Int.ofNat_eq_natCast] at heq
  constructor
  · omega
  · omega

/-- Counting the steps ordered strictly before a fresh row inserted at
position `p`: when the prior indices are `{0,…,N-1}`, exactly
`clampNat p N` of the shifted rows sort before the new row. -/
theorem rowNumber_new {l : List SessionStep} {new : SessionStep}
    (horders : (l.map (·.order_index)).Perm
      ((List.range l.length).map Int.ofNat)) :
    rowNumber (l.map (shiftStep new.order_index) ++ [new]) new
      = clampNat new.order_index l.length := by
  unfold rowNumber
  rw [← List.countP_eq_length_filter, List.countP_append, List.countP_map]
  have hlast : List.countP (fun t => decide (stepBefore t new)) [new] = 0 := by
    simp [stepBefore_irrefl new]
  rw [hlast, Nat.add_zero]
  have hpt : List.countP
      ((fun t => decide (stepBefore t new)) ∘ shiftStep new.order_index) l
      = List.countP (fun t => decide (t.order_index < new.order_index)) l := by
    refine List.countP_congr ?_
    intro t _
    simp only [Function.comp_apply, decide_eq_true_eq]
    unfold shiftStep
    split
    · rename_i hle
      constructor
      · rintro (h | ⟨h, -⟩) <;> simp at h <;> omega
      · intro h
        omega
    · rename_i hgt
      constructor
      · rintro (h | ⟨h, -⟩)
        · exact h
        · omega
      · intro h
        exact Or.inl h
  rw [hpt]
  have hmap : List.countP (fun t => decide (t.order_index < new.order_index)) l
      = List.countP (fun v => decide (v < new.order_index))
          (l.map (·.order_index)) := by
    rw [List.countP_map]
    rfl
  rw [hmap, horders.countP_eq, List.countP_map]
  exact countP_range_lt l.length new.order_index

theorem shiftStep_below {p : ℤ} {t : SessionStep} (h : t.order_index < p) :
    shiftStep p t = t := by
  unfold shiftStep
  rw [if_neg (by omega)]

theorem clampNat_of_mem {v : ℤ} {N : Nat} (h0 : 0 ≤ v) (h1 : v < (N : ℤ)) :
    clampNat v N = v.toNat := by
  unfold clampNat
  split_ifs <;> omega

/-- A step strictly below the insertion position keeps its row number
when the prior indices are `{0,…,N-1}`. -/
theorem rowNumber_below {l : List SessionStep} {new st : SessionStep}
    (horders : (l.map (·.order_index)).Perm
      ((List.range l.length).map Int.ofNat))
    (hst : st ∈ l) (hbelow : st.order_index < new.order_index) :
    rowNumber (l.map (shiftStep new.order_index) ++ [new]) st
      = st.order_index.toNat := by
  have hnodup : (l.map (·.order_index)).Nodup := orders_nodup_of_perm_range horders
  have hinj : ∀ t ∈ l, t.order_index = st.order_index → t = st := by
    intro t ht heq
    exact List.inj_on_of_nodup_map hnodup ht hst heq
  unfold rowNumber
  rw [← List.countP_eq_length_filter, List.countP_append, List.countP_map]
  have hlast : List.countP (fun t => decide (stepBefore t st)) [new] = 0 := by
    simp only [List.countP_cons, List.countP_nil]
    have : ¬ stepBefore new st := by
      rintro (h | ⟨h, -⟩) <;> omega
    simp [this]
  rw [hlast, Nat.add_zero]
  have hpt : List.countP
      ((fun t => decide (stepBefore t st)) ∘ shiftStep new.order_index) l
      = List.countP (fun t => decide (t.order_index < st.order_index)) l := by
    refine List.countP_congr ?_
    intro t ht
    simp only [Function.comp_apply, decide_eq_true_eq]
    unfold shiftStep
    split
    · rename_i hle
      constructor
      · rintro (h | ⟨h, -⟩) <;> simp at h <;> omega
      · intro h
        omega
    · rename_i hgt
      constructor
      · rintro (h | ⟨heq, hid⟩)
        · exact h
        · rcases hinj t ht heq
          omega
      · intro h
        exact Or.inl h
  rw [hpt]
  have hmap : List.countP (fun t => decide (t.order_index < st.order_index)) l
      = List.countP (fun v => decide (v < st.order_index))
          (l.map (·.order_index)) := by
    rw [List.countP_map]
    rfl
  rcases order_mem_of_perm_range horders hst with ⟨hge, hlt⟩
  rw [hmap, horders.countP_eq, List.countP_map]
  have hcl := countP_range_lt l.length st.order_index
  exact hcl.trans (clampNat_of_mem hge hlt)

/-- A step strictly below the insertion position survives the trigger's
shift-and-normalize pass completely unchanged. -/
theorem trigger_below_mem {l : List SessionStep} {new st : SessionStep}
    (horders : (l.map (·.order_index)).Perm
      ((List.range l.length).map Int.ofNat))
    (hst : st ∈ l) (hbelow : st.order_index < new.order_index) :
    st ∈ trigger_reorder_session_steps l new := by
  have hmem : st ∈ l.map (shiftStep new.order_index) ++ [new] :=
    List.mem_append_left _
      (shiftStep_below hbelow ▸ List.mem_map_of_mem _ hst)
  have himg := List.mem_map_of_mem
    (fun s => { s with order_index :=
      (rowNumber (l.map (shiftStep new.order_index) ++ [new]) s : ℤ) }) hmem
  dsimp only at himg
  rw [rowNumber_below horders hst hbelow] at himg
  rcases order_mem_of_perm_range horders hst with ⟨hge, -⟩
  rw [Int.toNat_of_nonneg hge] at himg
  exact himg

/-- The `order_index` assigned to each pre-existing step by an insert at
position `new.order_index`. -/
def finalOrder (l : List SessionStep) (new t : SessionStep) : Nat :=
  rowNumber (l.map (shiftStep new.order_index) ++ [new])
    (shiftStep new.order_index t)

theorem finalOrder_mem {l : List SessionStep} (new : SessionStep)
    {a : SessionStep} (ha : a ∈ l) :
    ∃ a' ∈ trigger_reorder_session_steps l new,
      a'.id = a.id ∧ a'.order_index = (finalOrder l new a : ℤ) := by
  have hmem : shiftStep new.order_index a ∈
      l.map (shiftStep new.order_index) ++ [new] :=
    List.mem_append_left _ (List.mem_map_of_mem _ ha)
  refine ⟨_, List.mem_map_of_mem
    (fun s => { s with order_index :=
      (rowNumber (l.map (shiftStep new.order_index) ++ [new]) s : ℤ) }) hmem,
    ?_, rfl⟩
  exact shiftStep_id _ _

theorem finalOrder_strict_mono {l : List SessionStep} {new : SessionStep}
    (hn : (l.map (·.id)).Nodup) (hfresh : new.id ∉ l.map (·.id))
    {a b : SessionStep} (ha : a ∈ l) (_hb : b ∈ l)
    (hab : a.order_index < b.order_index) :
    finalOrder l new a < finalOrder l new b := by
  have hLids : ((l.map (shiftStep new.order_index) ++ [new]).map (·.id)).Nodup := by
    rw [List.map_append, shift_ids]
    refine List.nodup_append.mpr ⟨hn, List.nodup_singleton _, ?_⟩
    intro x hx hx'
    rcases List.mem_singleton.mp hx' with rfl
    exact hfresh hx
  have hLnodup : (l.map (shiftStep new.order_index) ++ [new]).Nodup :=
    List.Nodup.of_map _ hLids
  have hmema : shiftStep new.order_index a ∈
      l.map (shiftStep new.order_index) ++ [new] :=
    List.mem_append_left _ (List.mem_map_of_mem _ ha)
  have hsb : stepBefore (shiftStep new.order_index a)
      (shiftStep new.order_index b) := by
    unfold shiftStep stepBefore
    split_ifs with h1 h2 h2 <;> left <;> dsimp only <;> omega
  exact rowNumber_lt_rowNumber hLnodup hmema hsb

theorem withPending_ok_pending {s : Session} {sid : Nat}
    {f : SessionStep → SessionStep} {s2 : Session}
    (h : withPending s sid f = .ok s2) :
    ∃ st', (s.steps.find? fun t => t.id == sid) = some st' ∧
      st'.is_completed = false ∧ st'.is_skipped = false ∧
      s2.steps = s.steps.map fun t => if t.id == sid then f t else t := by
  unfold withPending at h
  split at h
  · exact absurd h (by simp)
  · rename_i st' heq
    split at h
    · exact absurd h (by simp)
    · rename_i hc
      cases h
      simp only [Bool.or_eq_true, not_or, Bool.not_eq_true] at hc
      exact ⟨st', heq, hc.1, hc.2, rfl⟩

theorem withPendingBinding_ok_pending {s : Session} {sid : Nat} {key : String}
    {f : IngredientBinding → IngredientBinding} {s2 : Session}
    (h : withPendingBinding s sid key f = .ok s2) :
    ∃ st', (s.steps.find? fun t => t.id == sid) = some st' ∧
      st'.is_completed = false ∧ st'.is_skipped = false ∧
      s2.steps = s.steps.map fun t =>
        if t.id == sid then
          { t with ingredients := t.ingredients.map fun b =>
              if b.key == key then f b else b }
        else t := by
  unfold withPendingBinding at h
  split at h
  · exact absurd h (by simp)
  · rename_i st' heq
    split at h
    · exact absurd h (by simp)
    · rename_i hc
      split at h
      · exact absurd h (by simp)
      · cases h
        simp only [Bool.or_eq_true, not_or, Bool.not_eq_true] at hc
        exact ⟨st', heq, hc.1, hc.2, rfl⟩

theorem mem_map_ite_of_ne {l : List SessionStep} {sid : Nat}
    {g : SessionStep → SessionStep} {st : SessionStep}
    (hne : st.id ≠ sid) (hst : st ∈ l) :
    st ∈ l.map fun t => if t.id == sid then g t else t := by
  have := List.mem_map_of_mem (fun t => if t.id == sid then g t else t) hst
  simpa [hne] using this

/-- A pending target found by id has `order_index ≥ current_step_index`,
provided completed steps are exactly those below the cursor. -/
theorem find_target_ge {s : Session} {sid : Nat} {st' t : SessionStep}
    (hn : IdsNodup s)
    (hcomp : ∀ st ∈ s.steps,
      st.order_index < s.current_step_index → st.is_completed = true)
    (hfind : (s.steps.find? fun u => u.id == sid) = some st')
    (hpend : st'.is_completed = false)
    (ht : t ∈ s.steps) (hid : t.id = sid) :
    s.current_step_index ≤ t.order_index ∧ t = st' := by
  have hmem : st' ∈ s.steps := List.mem_of_find?_eq_some hfind
  have hpid := List.find?_some hfind
  have hpid' : st'.id = sid := by simpa using hpid
  have hteq : t = st' :=
    List.inj_on_of_nodup_map hn ht hmem (by rw [hid, hpid'])
  subst hteq
  constructor
  · by_contra hlt
    push_neg at hlt
    rw [hcomp t ht hlt] at hpend
    cases hpend
  · rfl

/-- The step id an operation targets (`insert` creates rather than
targets). -/
def opTarget : Op → Option Nat
  | .insert _ _ _ _ _ => none
  | .update sid _ _ => some sid
  | .skip sid => some sid
  | .adjust_quantity sid _ _ => some sid
  | .substitute sid _ _ _ => some sid

/-- Any step strictly below the cursor survives a successful operation
completely unchanged. -/
theorem applyOp_history {s s2 : Session} {op : Op}
    (hn : IdsNodup s) (hinv : OrderInv s)
    (hcomp : ∀ st ∈ s.steps,
      st.order_index < s.current_step_index → st.is_completed = true)
    (h : applyOp s op = .ok s2) :
    ∀ st ∈ s.steps, st.order_index < s.current_step_index → st ∈ s2.steps := by
  intro st hst hb
  cases op with
  | insert pos stx dtx ings eqs =>
    simp only [applyOp] at h
    split at h
    · exact absurd h (by simp)
    · rename_i hguard
      push_neg at hguard
      cases h
      exact trigger_below_mem hinv hst (by dsimp only; omega)
  | update sid stx dtx =>
    simp only [applyOp] at h
    rcases withPending_ok_pending h with ⟨st', hfind, hpendc, -, hsteps⟩
    have hne : st.id ≠ sid := by
      intro hideq
      have := (find_target_ge hn hcomp hfind hpendc hst hideq).1
      omega
    rw [hsteps]
    exact mem_map_ite_of_ne hne hst
  | skip sid =>
    simp only [applyOp] at h
    rcases withPending_ok_pending h with ⟨st', hfind, hpendc, -, hsteps⟩
    have hne : st.id ≠ sid := by
      intro hideq
      have := (find_target_ge hn hcomp hfind hpendc hst hideq).1
      omega
    rw [hsteps]
    exact mem_map_ite_of_ne hne hst
  | adjust_quantity sid key amt =>
    simp only [applyOp] at h
    rcases withPendingBinding_ok_pending h with ⟨st', hfind, hpendc, -, hsteps⟩
    have hne : st.id ≠ sid := by
      intro hideq
      have := (find_target_ge hn hcomp hfind hpendc hst hideq).1
      omega
    rw [hsteps]
    exact mem_map_ite_of_ne hne hst
  | substitute sid key newName note =>
    simp only [applyOp] at h
    rcases withPendingBinding_ok_pending h with ⟨st', hfind, hpendc, -, hsteps⟩
    have hne : st.id ≠ sid := by
      intro hideq
      have := (find_target_ge hn hcomp hfind hpendc hst hideq).1
      omega
    rw [hsteps]
    exact mem_map_ite_of_ne hne hst

/-- A successful mutating operation only ever targets a step at or above
the cursor. -/
theorem applyOp_target_ge {s s2 : Session} {op : Op} {sid : Nat}
    {t : SessionStep} (hn : IdsNodup s)
    (hcomp : ∀ st ∈ s.steps,
      st.order_index < s.current_step_index → st.is_completed = true)
    (htgt : opTarget op = some sid) (ht : t ∈ s.steps) (hid : t.id = sid)
    (h : applyOp s op = .ok s2) :
    s.current_step_index ≤ t.order_index := by
  cases op with
  | insert pos stx dtx ings eqs => cases htgt
  | update sid' stx dtx =>
    rcases htgt with ⟨⟩
    simp only [applyOp] at h
    rcases withPending_ok_pending h with ⟨st', hfind, hpendc, -, -⟩
    exact (find_target_ge hn hcomp hfind hpendc ht hid).1
  | skip sid' =>
    rcases htgt with ⟨⟩
    simp only [applyOp] at h
    rcases withPending_ok_pending h with ⟨st', hfind, hpendc, -, -⟩
    exact (find_target_ge hn hcomp hfind hpendc ht hid).1
  | adjust_quantity sid' key amt =>
    rcases htgt with ⟨⟩
    simp only [applyOp] at h
    rcases withPendingBinding_ok_pending h with ⟨st', hfind, hpendc, -, -⟩
    exact (find_target_ge hn hcomp hfind hpendc ht hid).1
  | substitute sid' key newName note =>
    rcases htgt with ⟨⟩
    simp only [applyOp] at h
    rcases withPendingBinding_ok_pending h with ⟨st', hfind, hpendc, -, -⟩
    exact (find_target_ge hn hcomp hfind hpendc ht hid).1

/-- A successful insert's position respects the cursor guard. -/
theorem applyOp_insert_ge {s s2 : Session} {pos : ℤ} {stx dtx : String}
    {ings : List IngredientBinding} {eqs : List EquipmentBinding}
    (h : applyOp s (.insert pos stx dtx ings eqs) = .ok s2) :
    s.current_step_index ≤ pos := by
  simp only [applyOp] at h
  split at h
  · exact absurd h (by simp)
  · rename_i hguard
    omega

instance {bi : List IngredientBinding} {be : List EquipmentBinding}
    {body k : List Char} : Decidable (Unbound bi be body k) := by
  unfold Unbound
  infer_instance

instance {s : Session} : Decidable (IdsNodup s) := by
  unfold IdsNodup
  infer_instance

instance {s : Session} : Decidable (OrderInv s) := by
  unfold OrderInv
  infer_instance

/-- A small concrete session used to evaluate the theorems: step 10 is
already completed, the cursor is at step 11. -/
def demoBinding : IngredientBinding :=
  { key := "broth", name := "Vegetable Broth", originalAmount := 2,
    adjustedAmount := none, unit := "cup", is_substitution := false,
    substitution_note := none }

def demoStep0 : SessionStep :=
  { id := 10, order_index := 0, short_text := "Prep",
    detailed_description := "Dice {i:onion}", is_completed := true,
    is_skipped := false, agent_notes := none, ingredients := [],
    equipment := [] }

def demoStep1 : SessionStep :=
  { id := 11, order_index := 1, short_text := "Simmer",
    detailed_description := "Deglaze with {i:broth}", is_completed := false,
    is_skipped := false, agent_notes := none, ingredients := [demoBinding],
    equipment := [] }

def demoStep2 : SessionStep :=
  { id := 12, order_index := 2, short_text := "Finish",
    detailed_description := "Serve hot.", is_completed := false,
    is_skipped := false, agent_notes := none, ingredients := [],
    equipment := [] }

def demoSession : Session :=
  { current_step_index := 1, pax_multiplier := 1,
    steps := [demoStep0, demoStep1, demoStep2], modLog := [] }

/-- The state a successful insert produces. -/
def insertResult (s : Session) (pos : ℤ) (stx dtx : String)
    (ings : List IngredientBinding) (eqs : List EquipmentBinding) : Session :=
  { s with
    steps := trigger_reorder_session_steps s.steps
      { id := freshId s.steps, order_index := pos, short_text := stx,
        detailed_description := dtx, is_completed := false,
        is_skipped := false, agent_notes := none,
        ingredients := ings, equipment := eqs } }

def demoAfterSkip : Session :=
  match applyOp demoSession (Op.skip 11) with
  | .ok s => s
  | .error _ => demoSession

/-- A two-operation batch: an insert followed by an update that targets
the step the insert just created (`freshId demoSession.steps = 13`). -/
def demoOps8 : List Op :=
  [Op.insert 3 "Rescue" "Add more {i:broth}" [] [],
   Op.update 13 (some "Rescue onions") none]

/-- `true` iff rendering the step's template succeeds. -/
def renderOk (st : SessionStep) : Bool :=
  match renderStep st with
  | .ok _ => true
  | .error _ => false

end Mise

deriving instance DecidableEq for Except

set_option maxRecDepth 40000

namespace Mise

/-- C1: for every cooking session (well-formed: distinct step ids and
order indices `{0,…,N-1}`) and every successfully applied operation
batch, the multiset of `order_index` values over the session's steps
afterwards is exactly `{0,…,N-1}`: each value once, no duplicates, no
gaps (stated as a permutation of `List.range`). -/
theorem C1_order_invariant_after_batch (s : Session) (ops : List Op)
    (rd : String) (s2 : Session) (hn : IdsNodup s) (hinv : OrderInv s)
    (h : applyBatch s ops rd = .ok s2) : OrderInv s2 ∧ IdsNodup s2 := by
  rcases applyBatch_ok_log h with ⟨s1, hops, hs2, -⟩
  rcases applyOps_preserves hn hinv hops with ⟨hn1, hinv1, -, -⟩
  subst hs2
  exact ⟨hinv1, hn1⟩

theorem C1_order_invariant_after_batch_witness :
    OrderInv (sessionAfterAttempt demoSession [Op.skip 11] "burnt onions") ∧
    IdsNodup (sessionAfterAttempt demoSession [Op.skip 11] "burnt onions") :=
  C1_order_invariant_after_batch demoSession [Op.skip 11] "burnt onions"
    (sessionAfterAttempt demoSession [Op.skip 11] "burnt onions")
    (by decide) (by decide) (by decide)

/-- C2: a batch that fails validation is rejected as a whole: the error
carries the index and reason of the first failing operation (all earlier
operations validate on the simulated state, the operation at the reported
index fails), the session state after the attempt equals the state
before, and conversely any failing operation rejects the batch. -/
theorem C2_batch_rejection_atomicity (s : Session) (ops : List Op)
    (rd : String) :
    (∀ k r, applyBatch s ops rd = .error (k, r) →
      sessionAfterAttempt s ops rd = s ∧
      ∃ sk op, applyOps s (ops.take k) = .ok sk ∧ ops[k]? = some op ∧
        applyOp sk op = .error r) ∧
    (∀ k r sk op, applyOps s (ops.take k) = .ok sk → ops[k]? = some op →
      applyOp sk op = .error r → applyBatch s ops rd = .error (k, r)) := by
  constructor
  · intro k r h
    refine ⟨?_, applyOps_error_iff.mp (applyBatch_error_iff.mp h)⟩
    unfold sessionAfterAttempt
    rw [h]
  · intro k r sk op h1 h2 h3
    exact applyBatch_error_iff.mpr (applyOps_error_iff.mpr ⟨sk, op, h1, h2, h3⟩)

theorem C2_batch_rejection_atomicity_witness :
    sessionAfterAttempt demoSession [Op.skip 10] "fix step" = demoSession :=
  ((C2_batch_rejection_atomicity demoSession [Op.skip 10] "fix step").1
    0 .stepNotPending (by decide)).1

/-- C3: `insertAt` with `position ≥ current_step_index` succeeds, and
after the shift-then-renumber pass of `trigger_reorder_session_steps`
(ascending `(order_index, id)`) the `N + 1` steps carry exactly the
indices `{0,…,N}` — no duplicates, no gaps — whatever indices were held
before the call. -/
theorem C3_insertAt_renumbers (s : Session) (pos : ℤ) (stx dtx : String)
    (ings : List IngredientBinding) (eqs : List EquipmentBinding)
    (hn : IdsNodup s) (hpos : s.current_step_index ≤ pos) :
    applyOp s (.insert pos stx dtx ings eqs)
      = .ok (insertResult s pos stx dtx ings eqs) ∧
    (insertResult s pos stx dtx ings eqs).steps.length = s.steps.length + 1 ∧
    ((insertResult s pos stx dtx ings eqs).steps.map (·.order_index)).Perm
      ((List.range (s.steps.length + 1)).map Int.ofNat) := by
  have hng : ¬ pos < s.current_step_index := by omega
  refine ⟨?_, ?_, ?_⟩
  · simp only [applyOp]
    rw [if_neg hng]
    rfl
  · exact trigger_length _ _
  · exact (trigger_invariants hn (freshId_not_mem s.steps)).2

theorem C3_insertAt_renumbers_witness :
    applyOp demoSession (.insert 2 "New" "Stir well." [] [])
      = .ok (insertResult demoSession 2 "New" "Stir well." [] []) ∧
    (insertResult demoSession 2 "New" "Stir well." [] []).steps.length
      = demoSession.steps.length + 1 ∧
    ((insertResult demoSession 2 "New" "Stir well." [] []).steps.map
        (·.order_index)).Perm
      ((List.range (demoSession.steps.length + 1)).map Int.ofNat) :=
  C3_insertAt_renumbers demoSession 2 "New" "Stir well." [] []
    (by decide) (by decide)

/-- C4: an insert whose `step_index` is strictly below
`current_step_index` fails with `InvalidPosition`, the batch carrying it
is rejected with that reason at index 0, and the session is left
completely unchanged. -/
theorem C4_insert_guard (s : Session) (pos : ℤ) (stx dtx : String)
    (ings : List IngredientBinding) (eqs : List EquipmentBinding)
    (rd : String) (hpos : pos < s.current_step_index) :
    applyOp s (.insert pos stx dtx ings eqs) = .error .invalidPosition ∧
    applyBatch s [.insert pos stx dtx ings eqs] rd
      = .error (0, .invalidPosition) ∧
    sessionAfterAttempt s [.insert pos stx dtx ings eqs] rd = s := by
  have h1 : applyOp s (.insert pos stx dtx ings eqs)
      = .error .invalidPosition := by
    simp only [applyOp]
    rw [if_pos hpos]
  have h2 : applyOps s [.insert pos stx dtx ings eqs]
      = .error (0, .invalidPosition) := by
    unfold applyOps
    rw [h1]
  have h3 : applyBatch s [.insert pos stx dtx ings eqs] rd
      = .error (0, .invalidPosition) := applyBatch_error_iff.mpr h2
  refine ⟨h1, h3, ?_⟩
  unfold sessionAfterAttempt
  rw [h3]

theorem C4_insert_guard_witness :
    applyOp demoSession (.insert 0 "Early" "Too late." [] [])
      = .error .invalidPosition ∧
    applyBatch demoSession [.insert 0 "Early" "Too late." [] []] "scene c"
      = .error (0, .invalidPosition) ∧
    sessionAfterAttempt demoSession [.insert 0 "Early" "Too late." [] []]
      "scene c" = demoSession :=
  C4_insert_guard demoSession 0 "Early" "Too late." [] [] "scene c" (by decide)

/-- C5: rendering is all-or-nothing.  A failure is always
`UnresolvedPlaceholder(key)` for the key of some grammar token of the
template that has no matching binding in the appropriate binding set; a
success resolves every token; and a template containing any unbound
token never yields an output. -/
theorem C5_render_all_or_nothing (template : String)
    (bi : List IngredientBinding) (be : List EquipmentBinding) :
    (∀ e, render template bi be = .error e →
      ∃ k, e = .unresolvedPlaceholder (String.mk k) ∧
        ∃ body, Chunk.tok body ∈ scanChunks template.toList ∧
          Unbound bi be body k) ∧
    (∀ out, render template bi be = .ok out →
      ∀ body, Chunk.tok body ∈ scanChunks template.toList →
        ∃ piece, renderTok bi be body = .ok piece) ∧
    (∀ body k, Chunk.tok body ∈ scanChunks template.toList →
      Unbound bi be body k → ∀ out, render template bi be ≠ .ok out) := by
  refine ⟨?_, ?_, ?_⟩
  · intro e h
    rcases renderChunks_error_tok (render_error_iff.mp h) with ⟨body, hb, he⟩
    rcases renderTok_error_unbound he with ⟨k, hk, hub⟩
    exact ⟨k, hk, body, hb, hub⟩
  · intro out h body hb
    rcases render_ok_chunks h with ⟨cs, hcs, -⟩
    exact renderChunks_ok_toks hcs body hb
  · intro body k hb hub out hok
    rcases render_ok_chunks hok with ⟨cs, hcs, -⟩
    rcases renderChunks_ok_toks hcs body hb with ⟨piece, hp⟩
    rw [renderTok_unbound_error hub] at hp
    cases hp

theorem C5_render_all_or_nothing_witness :
    render "Mix {i:flour:qty} into the {e:bowl}" [] [] ≠ .ok "Mix" :=
  (C5_render_all_or_nothing "Mix {i:flour:qty} into the {e:bowl}" [] []).2.2
    ("i:flour:qty".toList) ("flour".toList) (by decide) (by decide) "Mix"

/-- C6: materialization copies every step preserving `order_index`,
`short_text` and the template text, initializes every ingredient
binding's `adjusted_amount` to `original_amount * pax_multiplier` (never
null) while `original_amount` keeps the template's unscaled value,
copies equipment bindings unchanged, and fails `EmptyRecipe` exactly on
a zero-step recipe; with `pax_multiplier = 2` the Vegan Chili
oil-heating step renders "4 tbsp olive oil" from the template's 2 tbsp. -/
theorem C6_materialize_scaling :
    (∀ (r : Recipe) (pax : ℚ),
      (materialize r pax = .error .emptyRecipe ↔ r.steps = []) ∧
      (∀ s, materialize r pax = .ok s →
        s.steps.map (·.order_index) = r.steps.map (·.order_index) ∧
        s.steps.map (·.detailed_description)
          = r.steps.map (·.detailed_description) ∧
        (∀ st ∈ s.steps, ∀ b ∈ st.ingredients,
          b.adjustedAmount = some (qmul b.originalAmount pax)) ∧
        s.steps.map (fun st => st.ingredients.map fun b =>
            (b.key, b.name, b.originalAmount, b.unit))
          = r.steps.map (fun st => st.step_ingredients.map fun tb =>
            (tb.key, tb.name, tb.amount, tb.unit)) ∧
        s.steps.map (fun st => st.equipment.map fun b => (b.key, b.name))
          = r.steps.map (fun st => st.step_equipment.map fun tb =>
            (tb.key, tb.name)))) ∧
    (∀ a b : ℚ, qmul a b = a * b) ∧
    materialize veganChili 2 = .ok (sessionOf veganChili 2) ∧
    ((stepAt (sessionOf veganChili 2) 1).ingredients.find?
        fun b => b.key == "oil")
      = some { key := "oil", name := "Olive Oil", originalAmount := 2,
               adjustedAmount := some 4, unit := "tbsp",
               is_substitution := false, substitution_note := none } ∧
    renderedContains (stepAt (sessionOf veganChili 2) 1) "4 tbsp olive oil"
      = true := by
  refine ⟨?_, qmul_eq_mul, by decide, by decide, by decide⟩
  intro r pax
  constructor
  · by_cases he : r.steps.isEmpty
    · unfold materialize
      rw [if_pos he]
      simp only [true_iff]
      exact List.isEmpty_iff.mp he
    · unfold materialize
      rw [if_neg he]
      constructor
      · intro h
        cases h
      · intro h
        exact absurd (List.isEmpty_iff.mpr h) he
  · intro s h
    unfold materialize at h
    split at h
    · exact absurd h (by simp)
    · cases h
      refine ⟨?_, ?_, ?_, ?_, ?_⟩
      · conv_rhs => rw [← List.enum_map_snd r.steps]
        rw [List.map_map, List.map_map]
        rfl
      · conv_rhs => rw [← List.enum_map_snd r.steps]
        rw [List.map_map, List.map_map]
        rfl
      · intro st hst b hb
        rcases List.mem_map.mp hst with ⟨p, -, rfl⟩
        rcases List.mem_map.mp hb with ⟨tb, -, rfl⟩
        rfl
      · conv_rhs => rw [← List.enum_map_snd r.steps]
        rw [List.map_map, List.map_map]
        refine List.map_congr_left ?_
        intro p _
        simp only [Function.comp_apply]
        rw [show (materializeStep pax p.1 p.2).ingredients
            = p.2.step_ingredients.map (materializeBinding pax) from rfl,
          List.map_map]
        rfl
      · conv_rhs => rw [← List.enum_map_snd r.steps]
        rw [List.map_map, List.map_map]
        refine List.map_congr_left ?_
        intro p _
        simp only [Function.comp_apply]
        rw [show (materializeStep pax p.1 p.2).equipment
            = p.2.step_equipment.map (fun te =>
                ({ key := te.key, name := te.name } : EquipmentBinding))
              from rfl,
          List.map_map]
        rfl

theorem C6_materialize_scaling_witness :
    (sessionOf veganChili 1).steps.map (·.order_index)
      = veganChili.steps.map (·.order_index) :=
  (((C6_materialize_scaling.1 veganChili 1).2) (sessionOf veganChili 1)
    (by decide)).1

/-- C7 counterexample: rendering step 0 of the materialized Vegan Chili
at `pax_multiplier = 1` succeeds but does *not* produce the phrase
"6 clove garlic" — the template's garlic token is the name-only
`{i:garlic}` form, and no `{i:garlic:qty}` token exists in step 0. -/
theorem C7_scenario_counterexample :
    renderOk (stepAt (sessionOf veganChili 1) 0) = true ∧
    renderedContains (stepAt (sessionOf veganChili 1) 0) "6 clove garlic"
      = false ∧
    Chunk.tok ("i:garlic:qty".toList)
      ∉ scanChunks
        (stepAt (sessionOf veganChili 1) 0).detailed_description.toList := by
  refine ⟨by decide, by decide, by decide⟩

/-- C7 (amended): integral amounts are formatted without a decimal point
and fractional terminating amounts with no trailing zero (`1.5`, never
`1.50`); rendering step 0 of the Vegan Chili at `pax_multiplier = 1`
succeeds and contains "onion" and "garlic" as plain text (the template
uses the name-only `{i:garlic}` token), and the `{i:garlic:qty}` token
rendered against the same bindings yields exactly "6 clove garlic". -/
theorem C7_amount_formatting_amended :
    (∀ q : ℚ, q.den = 1 → '.' ∉ fmtAmountChars q) ∧
    (∀ q : ℚ, q.den ≠ 1 → q.den ∣ 10 ^ 30 →
      ∀ c, (fmtAmountChars q).getLast? = some c → c ≠ '0') ∧
    fmtAmountChars (Rat.divInt 3 2) = ['1', '.', '5'] ∧
    fmtAmountChars 6 = ['6'] ∧
    renderOk (stepAt (sessionOf veganChili 1) 0) = true ∧
    renderedContains (stepAt (sessionOf veganChili 1) 0) "onion" = true ∧
    renderedContains (stepAt (sessionOf veganChili 1) 0) "garlic" = true ∧
    render "{i:garlic:qty}" (stepAt (sessionOf veganChili 1) 0).ingredients
      (stepAt (sessionOf veganChili 1) 0).equipment
      = .ok "6 clove garlic" :=
  ⟨fun _ h => fmtAmount_integral_no_dot h,
   fun _ h1 h2 => fmtAmount_fractional_minimal h1 h2,
   by decide, by decide, by decide, by decide, by decide, by decide⟩

theorem C7_amount_formatting_amended_witness :
    '.' ∉ fmtAmountChars 6 :=
  C7_amount_formatting_amended.1 6 (by decide)

/-- C8: operations of a validated batch apply sequentially, each on the
state left by the previous one (an insert earlier in the batch can be the
target of an update later in the same batch, as the concrete two-op batch
shows); exactly one `SessionModification` record is appended per
successful batch, none for a rejected batch, and the log is append-only. -/
theorem C8_sequential_and_single_log :
    (∀ (s : Session) (ops : List Op) (rd : String) (s2 : Session),
      applyBatch s ops rd = .ok s2 →
      s2.modLog = s.modLog ++ [batchRecord rd]) ∧
    (∀ (s : Session) (ops : List Op) (rd : String) (e : Nat × Reason),
      applyBatch s ops rd = .error e → sessionAfterAttempt s ops rd = s) ∧
    (∀ (s : Session) (ops : List Op) (rd : String),
      s.modLog <+: (sessionAfterAttempt s ops rd).modLog) ∧
    applyBatch demoSession demoOps8 "need onions"
      = .ok (sessionAfterAttempt demoSession demoOps8 "need onions") ∧
    ((sessionAfterAttempt demoSession demoOps8 "need onions").steps.any
      fun st => st.id == 13 && st.short_text == "Rescue onions") = true ∧
    (sessionAfterAttempt demoSession demoOps8 "need onions").modLog
      = [batchRecord "need onions"] := by
  refine ⟨?_, ?_, ?_, by decide, by decide, by decide⟩
  · intro s ops rd s2 h
    rcases applyBatch_ok_log h with ⟨s1, -, -, hlog⟩
    exact hlog
  · intro s ops rd e h
    unfold sessionAfterAttempt
    rw [h]
  · intro s ops rd
    unfold sessionAfterAttempt
    split
    · rename_i s2 h
      rcases applyBatch_ok_log h with ⟨s1, -, -, hlog⟩
      rw [hlog]
      exact List.prefix_append _ _
    · exact List.prefix_refl _

theorem C8_sequential_and_single_log_witness :
    (sessionAfterAttempt demoSession [Op.skip 11] "w").modLog
      = demoSession.modLog ++ [batchRecord "w"] :=
  C8_sequential_and_single_log.1 demoSession [Op.skip 11] "w"
    (sessionAfterAttempt demoSession [Op.skip 11] "w") (by decide)

/-- C9: in a well-formed session (distinct ids, contiguous indices,
completed steps exactly those below the cursor), every successfully
applied operation targets a step with `order_index ≥ current_step_index`
(for `insert`, the position itself respects the guard), every step
strictly below the cursor survives completely unchanged, and the cursor
does not move. -/
theorem C9_history_immutable (s : Session) (op : Op) (s2 : Session)
    (hn : IdsNodup s) (hinv : OrderInv s)
    (hcomp : ∀ st ∈ s.steps,
      st.order_index < s.current_step_index → st.is_completed = true)
    (h : applyOp s op = .ok s2) :
    (∀ sid t, opTarget op = some sid → t ∈ s.steps → t.id = sid →
      s.current_step_index ≤ t.order_index) ∧
    (∀ pos stx dtx ings eqs, op = .insert pos stx dtx ings eqs →
      s.current_step_index ≤ pos) ∧
    (∀ st ∈ s.steps, st.order_index < s.current_step_index → st ∈ s2.steps) ∧
    s2.current_step_index = s.current_step_index := by
  refine ⟨fun sid t htgt ht hid => applyOp_target_ge hn hcomp htgt ht hid h,
    ?_, applyOp_history hn hinv hcomp h, (applyOp_log h).2⟩
  intro pos stx dtx ings eqs hop
  subst hop
  exact applyOp_insert_ge h

theorem C9_history_immutable_witness :
    demoStep0 ∈ demoAfterSkip.steps ∧
    demoAfterSkip.current_step_index = demoSession.current_step_index :=
  ⟨(C9_history_immutable demoSession (Op.skip 11) demoAfterSkip (by decide)
      (by decide) (by decide) (by decide)).2.2.1 demoStep0 (by decide)
      (by decide),
   (C9_history_immutable demoSession (Op.skip 11) demoAfterSkip (by decide)
      (by decide) (by decide) (by decide)).2.2.2⟩

/-- C10: inserting a new step at any integer position `p` — no validity
check, including `p < 0` and `p > N-1` — restores contiguous numbering
`{0,…,N}`, keeps the pre-existing steps in their relative order, and
places the new step at `min (max p 0) N`: out-of-range positions are
silently clamped, not rejected. -/
theorem C10_insert_clamps_position (l : List SessionStep)
    (new : SessionStep) (hn : (l.map (·.id)).Nodup)
    (hfresh : new.id ∉ l.map (·.id))
    (horders : (l.map (·.order_index)).Perm
      ((List.range l.length).map Int.ofNat)) :
    ((trigger_reorder_session_steps l new).map (·.order_index)).Perm
      ((List.range (l.length + 1)).map Int.ofNat) ∧
    (∀ a ∈ l, ∃ a' ∈ trigger_reorder_session_steps l new,
      a'.id = a.id ∧ a'.order_index = (finalOrder l new a : ℤ)) ∧
    (∀ a ∈ l, ∀ b ∈ l, a.order_index < b.order_index →
      finalOrder l new a < finalOrder l new b) ∧
    ∃ n' ∈ trigger_reorder_session_steps l new, n'.id = new.id ∧
      n'.order_index = min (max new.order_index 0) ((l.length : ℤ)) := by
  refine ⟨(trigger_invariants hn hfresh).2,
    fun a ha => finalOrder_mem new ha,
    fun a ha b hb hab => finalOrder_strict_mono hn hfresh ha hb hab, ?_⟩
  have hmem : new ∈ l.map (shiftStep new.order_index) ++ [new] :=
    List.mem_append_right _ (List.mem_singleton.mpr rfl)
  refine ⟨{ new with order_index :=
      (rowNumber (l.map (shiftStep new.order_index) ++ [new]) new : ℤ) },
    ?_, rfl, ?_⟩
  · exact List.mem_map_of_mem
      (fun s => { s with order_index :=
        (rowNumber (l.map (shiftStep new.order_index) ++ [new]) s : ℤ) }) hmem
  · dsimp only
    rw [rowNumber_new horders, clampNat_eq_min_max]

def c10demoNew : SessionStep :=
  { id := 99, order_index := -4, short_text := "Very early",
    detailed_description := "Squeeze in first.", is_completed := false,
    is_skipped := false, agent_notes := none, ingredients := [],
    equipment := [] }

theorem C10_insert_clamps_position_witness :
    ((trigger_reorder_session_steps [demoStep0, demoStep1] c10demoNew).map
        (·.order_index)).Perm
      ((List.range ([demoStep0, demoStep1].length + 1)).map Int.ofNat) :=
  (C10_insert_clamps_position [demoStep0, demoStep1] c10demoNew
    (by decide) (by decide) (by decide)).1
